import Mathlib

/-!
Shallow embedding of `src/bin/categorizer.py`.

The script lists the regular files of a target directory, groups them by a
formatted version of their last-modified time, prints the grouping, and
(unless the `-s` simulation flag is given) moves every listed file into a
subdirectory named after its group key.

Filesystem state is modelled explicitly: the target path is either missing,
a regular file, or a directory given as a list of entries (regular files
with an mtime, or subdirectories with their own files).  The observable
actions of a run (console output lines, directory creations, renames) are
recorded as an event trace.  `strftime` composed with
`datetime.fromtimestamp` for the fixed `date_format` argument is modelled
as an opaque function `fmt : Nat → String` on timestamps.
-/

set_option autoImplicit false

/-- A regular file: its name and last-modified timestamp. -/
structure FileEnt where
  name : String
  mtime : Nat
deriving DecidableEq, Repr

/-- A direct child of the target directory: a regular file, or a
subdirectory together with the files it contains. -/
inductive Entry where
  | file : FileEnt → Entry
  | subdir : String → List FileEnt → Entry
deriving DecidableEq, Repr

/-- The name under which an entry appears in a directory listing. -/
def Entry.name : Entry → String
  | .file f => f.name
  | .subdir n _ => n

/-- Whether `os.path.isfile` holds of the entry. -/
def Entry.isFile : Entry → Bool
  | .file _ => true
  | .subdir _ _ => false

/-- The target path handed to the script: missing, a regular file, or a
directory with its listing. -/
inductive Target where
  | missing : Target
  | plainFile : Target
  | dir : List Entry → Target
deriving DecidableEq, Repr

/-- The deny-list of OS metadata file names (`categorizer.py` line 33). -/
def systemFiles : List String := ["desktop.ini", "thumbs.db", ".DS_Store"]

/-- `f.startswith(".")` for the hidden-file check: the first character of
the name is the hidden-file marker. -/
def startsWithDot (f : String) : Bool :=
  match f.data with
  | [] => false
  | c :: _ => c == '.'

/-- The per-entry filter of `get_file_list` (lines 31-35): regular files
only, no deny-listed system files, no hidden files. -/
def goodEntry (e : Entry) : Bool :=
  e.isFile && !(systemFiles.contains e.name) && !(startsWithDot e.name)

/-- Names kept by the list comprehension in `get_file_list` (lines 31-35). -/
def listFiles (entries : List Entry) : List String :=
  (entries.filter goodEntry).map Entry.name

/-- `get_file_list` (lines 14-35): diagnose-and-exit on a missing path or a
path that is a regular file, otherwise return the filtered listing.  The
error value carries the printed diagnostic. -/
def get_file_list (pwd : String) : Target → Except String (List String)
  | .missing => .error (String.append "No such folder: " pwd)
  | .plainFile => .error (String.append pwd " is a file.")
  | .dir entries => .ok (listFiles entries)

/-- `os.path.getmtime(os.path.join(pwd, n))`: the mtime of the directory
entry named `n`, `none` when the lookup fails. -/
def getmtime (entries : List Entry) (n : String) : Option Nat :=
  match entries.find? (fun e => e.name == n) with
  | some (.file f) => some f.mtime
  | _ => none

/-- `get_file_time_str` (lines 38-47): format the file's last-modified
time; a failed mtime lookup is a fatal error. -/
def get_file_time_str (fmt : Nat → String) (entries : List Entry) (n : String) :
    Option String :=
  (getmtime entries n).map fmt

/-- A grouping, as the insertion-ordered Python dict of line 69: group key
to member file names. -/
abbrev Grouping := List (String × List String)

/-- The dict update of line 73:
`file_group[k] = file_group.get(k, []) + [f]`.  An existing key keeps its
position and gets `f` appended; a new key is appended at the end. -/
def insertGroup (k f : String) : Grouping → Grouping
  | [] => [(k, [f])]
  | (k', fs) :: rest =>
    if k' = k then (k', fs ++ [f]) :: rest
    else (k', fs) :: insertGroup k f rest

/-- The loop of `group_by_date` (lines 71-73), threading the dict. -/
def groupAux (fmt : Nat → String) (entries : List Entry) :
    Grouping → List String → Option Grouping
  | g, [] => some g
  | g, f :: fs =>
    match get_file_time_str fmt entries f with
    | none => none
    | some k => groupAux fmt entries (insertGroup k f g) fs

/-- `group_by_date` (lines 60-75): fold the input file list into a
grouping; `none` models the fatal error of a failed mtime read. -/
def group_by_date (fmt : Nat → String) (entries : List Entry)
    (file_list : List String) : Option Grouping :=
  groupAux fmt entries [] file_list

/-- The same grouping computation for a total key function; used to state
properties of `group_by_date`, which agrees with it whenever every mtime
lookup succeeds. -/
def keyedGroups (keyOf : String → String) (file_list : List String) : Grouping :=
  file_list.foldl (fun g f => insertGroup (keyOf f) f g) []

/-- The group key the script computes for file `n`: its formatted mtime. -/
def keyOfFile (fmt : Nat → String) (entries : List Entry) (n : String) : String :=
  fmt ((getmtime entries n).getD 0)

/-- The grouping a run computes for a directory state. -/
def theGrouping (fmt : Nat → String) (entries : List Entry) : Grouping :=
  keyedGroups (keyOfFile fmt entries) (listFiles entries)

/-- `print_group_info` (lines 78-87) as the list of printed lines: each
group key followed by its indented member names. -/
def print_group_info (g : Grouping) : List String :=
  g.flatMap (fun p => String.append p.1 ":" :: p.2.map (fun f => String.append "  - " f))

/-- An observable action of a run: a printed line, a directory creation,
or a rename of a top-level file into a subdirectory. -/
inductive Event where
  | out : String → Event
  | mkdir : String → Event
  | rename : String → String → Event
deriving DecidableEq, Repr

/-- Whether the event is a rename. -/
def Event.isRename : Event → Bool
  | .rename _ _ => true
  | _ => false

/-- `os.path.exists(os.path.join(pwd, k))` inside the target directory. -/
def existsName (st : List Entry) (k : String) : Bool :=
  st.any (fun e => e.name == k)

/-- Whether the entry is a subdirectory named `d` containing a file `f`. -/
def dirHasFile (d f : String) : Entry → Bool
  | .file _ => false
  | .subdir n cs => n == d && cs.any (fun c => c.name == f)

/-- The directory state has a subdirectory `d` containing a file named `f`. -/
def inDir (st : List Entry) (d f : String) : Bool :=
  st.any (dirHasFile d f)

/-- Whether the entry is a subdirectory named `d`. -/
def isSubdirNamed (d : String) : Entry → Bool
  | .file _ => false
  | .subdir n _ => n == d

/-- The directory state has a subdirectory named `d`. -/
def hasDir (st : List Entry) (d : String) : Bool :=
  st.any (isSubdirNamed d)

/-- Names of all direct entries, the view `os.listdir` gives. -/
def entryNames (st : List Entry) : List String := st.map Entry.name

/-- Names of the top-level regular files of the state. -/
def topFileNames (st : List Entry) : List String :=
  (st.filter Entry.isFile).map Entry.name

/-- Resolving the source of `os.rename(os.path.join(pwd, f), _)`: detach
the first entry named `f`, which must be a regular file. -/
def removeFile : List Entry → String → Option (FileEnt × List Entry)
  | [], _ => none
  | e :: rest, f =>
    if e.name = f then
      match e with
      | .file ff => some (ff, rest)
      | .subdir _ _ => none
    else
      (removeFile rest f).map (fun p => (p.1, e :: p.2))

/-- Resolving the destination of a rename: append the file to the contents
of the subdirectory named `d`; fail when no such subdirectory exists, when
the entry named `d` is a regular file, or when the destination name is
already taken. -/
def addToDir : List Entry → String → FileEnt → Option (List Entry)
  | [], _, _ => none
  | e :: rest, d, ff =>
    if e.name = d then
      match e with
      | .subdir n cs =>
        if cs.any (fun c => c.name == ff.name) then none
        else some (Entry.subdir n (cs ++ [ff]) :: rest)
      | .file _ => none
    else
      (addToDir rest d ff).map (fun r => e :: r)

/-- `os.rename(os.path.join(pwd, f), os.path.join(pwd, d, f))` (line 104):
move the top-level file `f` into subdirectory `d`, keeping its name. -/
def moveOne (st : List Entry) (d f : String) : Option (List Entry) :=
  match removeFile st f with
  | none => none
  | some (ff, st1) => addToDir st1 d ff

/-- The inner loop of `do_move` (lines 103-104): rename each member of a
group, in order, into the group's subdirectory; stop at the first failure. -/
def moveFiles (d : String) : List Entry → List String → List Event × Option (List Entry)
  | st, [] => ([], some st)
  | st, f :: fs =>
    match moveOne st d f with
    | none => ([], none)
    | some st1 =>
      ((Event.rename f d) :: (moveFiles d st1 fs).1, (moveFiles d st1 fs).2)

/-- One iteration of the outer loop of `do_move` (lines 97-104): create the
group's directory when no entry of that name exists, then move the members. -/
def moveGroup (st : List Entry) (k : String) (fs : List String) :
    List Event × Option (List Entry) :=
  if existsName st k then moveFiles k st fs
  else
    (Event.mkdir k :: (moveFiles k (st ++ [Entry.subdir k []]) fs).1,
     (moveFiles k (st ++ [Entry.subdir k []]) fs).2)

/-- `do_move` (lines 90-104): process the groups in dict order; a fatal
error aborts the remaining moves, keeping the mutations already made. -/
def do_move : List Entry → Grouping → List Event × Option (List Entry)
  | st, [] => ([], some st)
  | st, (k, fs) :: rest =>
    match moveGroup st k fs with
    | (evs, none) => (evs, none)
    | (evs, some st1) => (evs ++ (do_move st1 rest).1, (do_move st1 rest).2)

/-- The `__main__` block (lines 107-143): list, group and print; then,
unless the simulation flag is set, list and group a second time and move.
The result is the event trace paired with the final target state, `none`
standing for abnormal termination. -/
def runMain (pwd : String) (fmt : Nat → String) (simulation : Bool) :
    Target → List Event × Option Target
  | .missing => ([Event.out (String.append "No such folder: " pwd)], none)
  | .plainFile => ([Event.out (String.append pwd " is a file.")], none)
  | .dir entries =>
    match group_by_date fmt entries (listFiles entries) with
    | none => ([], none)
    | some g =>
      let preview := (print_group_info g).map Event.out
      if simulation then (preview, some (Target.dir entries))
      else
        match group_by_date fmt entries (listFiles entries) with
        | none => (preview, none)
        | some g2 =>
          match do_move entries g2 with
          | (evs, none) => (preview ++ evs, none)
          | (evs, some st) => (preview ++ evs, some (Target.dir st))

/-- Keys of a grouping, in dict iteration order. -/
def keysOf (g : Grouping) : List String := g.map Prod.fst

/-- First association of `k` in a grouping. -/
def lookupGroup (k : String) : Grouping → Option (List String)
  | [] => none
  | (k', fs) :: rest => if k' = k then some fs else lookupGroup k rest

/-- Members of the group keyed `k`, empty when the key is absent. -/
def groupAt (k : String) (g : Grouping) : List String :=
  (lookupGroup k g).getD []

/-- The keys of the input in first-occurrence order; the spec's description
of a grouping's key order. -/
def firstOccKeys (keyOf : String → String) (l : List String) : List String :=
  l.foldl (fun acc f => if keyOf f ∈ acc then acc else acc ++ [keyOf f]) []

/-- Rename events of a full successful move, in the order `do_move`
performs them: group by group, members in group order. -/
def renameTrace (g : Grouping) : List Event :=
  g.flatMap (fun p => p.2.map (fun f => Event.rename f p.1))

/-- Single-scan variant of the `__main__` block, following the spec's
alternative reading: compute the grouping once and hand the same value to
the reporter and the mover. -/
def runOnePass (pwd : String) (fmt : Nat → String) :
    Target → List Event × Option Target
  | .missing => ([Event.out (String.append "No such folder: " pwd)], none)
  | .plainFile => ([Event.out (String.append pwd " is a file.")], none)
  | .dir entries =>
    match group_by_date fmt entries (listFiles entries) with
    | none => ([], none)
    | some g =>
      let preview := (print_group_info g).map Event.out
      match do_move entries g with
      | (evs, none) => (preview ++ evs, none)
      | (evs, some st) => (preview ++ evs, some (Target.dir st))

/-- A sample directory listing: two plain files with distinct mtimes. -/
def exDir : List Entry := [Entry.file ⟨"a", 1⟩, Entry.file ⟨"b", 2⟩]

/-- A sample mixed directory listing: plain files, a subdirectory, a
deny-listed system file, a hidden file, a case-variant of a system file. -/
def exMix : List Entry :=
  [Entry.file ⟨"a.txt", 1⟩, Entry.subdir "sub" [⟨"inner.txt", 2⟩],
   Entry.file ⟨"desktop.ini", 3⟩, Entry.file ⟨".hidden", 4⟩,
   Entry.file ⟨"Desktop.ini", 5⟩, Entry.file ⟨"thumbs.db", 6⟩]

/-- A directory whose only entry is a deny-listed system file. -/
def exOnlySystem : List Entry := [Entry.file ⟨"desktop.ini", 0⟩]

/-! ### Properties of the pure grouping -/

theorem lookupGroup_insertGroup (k k' f : String) (g : Grouping) :
    lookupGroup k (insertGroup k' f g) =
      if k' = k then some (groupAt k g ++ [f]) else lookupGroup k g := by
  induction g with
  | nil =>
    by_cases h : k' = k <;> simp [insertGroup, lookupGroup, groupAt, h]
  | cons p rest ih =>
    obtain ⟨a, bs⟩ := p
    by_cases hak : a = k' <;> by_cases hk : k' = k <;>
      simp [insertGroup, lookupGroup, groupAt, hak, hk, ih] <;>
      simp_all [lookupGroup, groupAt]

theorem groupAt_insertGroup (k k' f : String) (g : Grouping) :
    groupAt k (insertGroup k' f g) =
      groupAt k g ++ (if k' = k then [f] else []) := by
  rw [groupAt, lookupGroup_insertGroup]
  by_cases h : k' = k <;> simp [h, groupAt]

theorem keysOf_insertGroup (k f : String) (g : Grouping) :
    keysOf (insertGroup k f g) =
      if k ∈ keysOf g then keysOf g else keysOf g ++ [k] := by
  induction g with
  | nil => simp [insertGroup, keysOf]
  | cons p rest ih =>
    obtain ⟨a, bs⟩ := p
    by_cases hak : a = k
    · simp [insertGroup, keysOf, hak]
    · have hka : ¬k = a := fun h => hak h.symm
      by_cases hmem : k ∈ keysOf rest <;>
        simp [insertGroup, keysOf, hak, hka, hmem, ih] <;> simp_all [keysOf]

theorem groupAt_foldl (keyOf : String → String) (l : List String) :
    ∀ (g : Grouping) (k : String),
      groupAt k (l.foldl (fun g f => insertGroup (keyOf f) f g) g) =
        groupAt k g ++ l.filter (fun f => keyOf f == k) := by
  induction l with
  | nil => intro g k; simp
  | cons f fs ih =>
    intro g k
    rw [List.foldl_cons, ih, groupAt_insertGroup, List.filter_cons]
    by_cases h : keyOf f = k <;> simp [h]

theorem groupAt_keyedGroups (keyOf : String → String) (l : List String) (k : String) :
    groupAt k (keyedGroups keyOf l) = l.filter (fun f => keyOf f == k) := by
  rw [keyedGroups, groupAt_foldl]
  simp [groupAt, lookupGroup]

theorem keysOf_foldl (keyOf : String → String) (l : List String) :
    ∀ g : Grouping,
      keysOf (l.foldl (fun g f => insertGroup (keyOf f) f g) g) =
        l.foldl (fun acc f => if keyOf f ∈ acc then acc else acc ++ [keyOf f]) (keysOf g) := by
  induction l with
  | nil => intro g; simp
  | cons f fs ih =>
    intro g
    rw [List.foldl_cons, List.foldl_cons, ih, keysOf_insertGroup]

theorem keysOf_keyedGroups (keyOf : String → String) (l : List String) :
    keysOf (keyedGroups keyOf l) = firstOccKeys keyOf l := by
  rw [keyedGroups, keysOf_foldl, firstOccKeys]
  rfl

theorem firstOccKeys_aux_mem (keyOf : String → String) (l : List String) :
    ∀ (acc : List String) (k : String),
      (k ∈ l.foldl (fun acc f => if keyOf f ∈ acc then acc else acc ++ [keyOf f]) acc
        ↔ k ∈ acc ∨ ∃ f ∈ l, keyOf f = k) := by
  induction l with
  | nil => intro acc k; simp
  | cons f fs ih =>
    intro acc k
    rw [List.foldl_cons, ih]
    by_cases h : keyOf f ∈ acc
    · simp only [if_pos h]
      constructor
      · rintro (hk | hk)
        · exact Or.inl hk
        · exact Or.inr (by simpa using Or.inr hk)
      · rintro (hk | ⟨f', hf', hk⟩)
        · exact Or.inl hk
        · rcases List.mem_cons.mp hf' with h1 | h1
          · exact Or.inl (by rw [← hk, h1]; exact h)
          · exact Or.inr ⟨f', h1, hk⟩
    · simp only [if_neg h, List.mem_append, List.mem_singleton]
      constructor
      · rintro ((hk | hk) | hk)
        · exact Or.inl hk
        · exact Or.inr ⟨f, List.mem_cons_self f fs, hk.symm⟩
        · exact Or.inr (by simpa using Or.inr hk)
      · rintro (hk | ⟨f', hf', hk⟩)
        · exact Or.inl (Or.inl hk)
        · rcases List.mem_cons.mp hf' with h1 | h1
          · exact Or.inl (Or.inr (h1 ▸ hk.symm))
          · exact Or.inr ⟨f', h1, hk⟩

theorem mem_keysOf_keyedGroups (keyOf : String → String) (l : List String) (k : String) :
    k ∈ keysOf (keyedGroups keyOf l) ↔ ∃ f ∈ l, keyOf f = k := by
  rw [keysOf_keyedGroups, firstOccKeys, firstOccKeys_aux_mem]
  simp

theorem firstOccKeys_aux_nodup (keyOf : String → String) (l : List String) :
    ∀ acc : List String, acc.Nodup →
      (l.foldl (fun acc f => if keyOf f ∈ acc then acc else acc ++ [keyOf f]) acc).Nodup := by
  induction l with
  | nil => intro acc h; simpa using h
  | cons f fs ih =>
    intro acc h
    rw [List.foldl_cons]
    by_cases hm : keyOf f ∈ acc
    · rw [if_pos hm]; exact ih acc h
    · rw [if_neg hm]
      refine ih _ ?_
      rw [← List.concat_eq_append]
      exact List.Nodup.concat hm h

theorem keysOf_keyedGroups_nodup (keyOf : String → String) (l : List String) :
    (keysOf (keyedGroups keyOf l)).Nodup := by
  rw [keysOf_keyedGroups, firstOccKeys]
  exact firstOccKeys_aux_nodup keyOf l [] List.nodup_nil

theorem lookupGroup_eq_of_mem (k : String) (fs : List String) :
    ∀ g : Grouping, (keysOf g).Nodup → (k, fs) ∈ g → lookupGroup k g = some fs := by
  intro g
  induction g with
  | nil => intro _ h; cases h
  | cons p rest ih =>
    obtain ⟨a, bs⟩ := p
    intro hnd hmem
    rcases List.mem_cons.mp hmem with h | h
    · have h1 : a = k := (congrArg Prod.fst h).symm
      have h2 : fs = bs := congrArg Prod.snd h
      rw [lookupGroup, if_pos h1, h2]
    · have hk : k ∈ keysOf rest := by
        rw [keysOf]; exact List.mem_map.mpr ⟨(k, fs), h, rfl⟩
      have h0 := hnd
      rw [keysOf] at h0
      simp only [List.map_cons] at h0
      have hna : a ∉ keysOf rest := (List.nodup_cons.mp h0).1
      have hak : ¬a = k := fun hh => hna (hh ▸ hk)
      rw [lookupGroup, if_neg hak]
      exact ih (List.nodup_cons.mp h0).2 h

theorem mem_of_lookupGroup (k : String) (fs : List String) :
    ∀ g : Grouping, lookupGroup k g = some fs → (k, fs) ∈ g := by
  intro g
  induction g with
  | nil => intro h; cases h
  | cons p rest ih =>
    obtain ⟨a, bs⟩ := p
    intro h
    rw [lookupGroup] at h
    by_cases hak : a = k
    · rw [if_pos hak] at h
      cases h
      exact hak ▸ List.mem_cons_self _ _
    · rw [if_neg hak] at h
      exact List.mem_cons_of_mem _ (ih h)

theorem snds_flatten_insertGroup (k f : String) (g : Grouping) :
    List.Perm ((insertGroup k f g).map Prod.snd).flatten
      (((g.map Prod.snd).flatten) ++ [f]) := by
  induction g with
  | nil => simp [insertGroup]
  | cons p rest ih =>
    obtain ⟨a, bs⟩ := p
    by_cases hak : a = k
    · simp only [insertGroup, if_pos hak, List.map_cons, List.flatten_cons]
      rw [List.append_assoc, List.append_assoc]
      exact List.perm_append_comm.append_left bs
    · simp only [insertGroup, if_neg hak, List.map_cons, List.flatten_cons]
      rw [List.append_assoc]
      exact ih.append_left bs

theorem snds_flatten_foldl (keyOf : String → String) (l : List String) :
    ∀ g : Grouping,
      List.Perm ((l.foldl (fun g f => insertGroup (keyOf f) f g) g).map Prod.snd).flatten
        (((g.map Prod.snd).flatten) ++ l) := by
  induction l with
  | nil => intro g; simp
  | cons f fs ih =>
    intro g
    rw [List.foldl_cons]
    have h1 := ih (insertGroup (keyOf f) f g)
    have h2 := (snds_flatten_insertGroup (keyOf f) f g).append_right fs
    have h3 := h1.trans h2
    have h4 : ((g.map Prod.snd).flatten ++ [f]) ++ fs
        = (g.map Prod.snd).flatten ++ (f :: fs) := by simp
    rw [h4] at h3
    exact h3

theorem snds_flatten_keyedGroups (keyOf : String → String) (l : List String) :
    List.Perm ((keyedGroups keyOf l).map Prod.snd).flatten l := by
  have := snds_flatten_foldl keyOf l []
  simpa using this

theorem groupAux_eq_foldl (fmt : Nat → String) (entries : List Entry) (l : List String) :
    ∀ g : Grouping, (∀ f ∈ l, (getmtime entries f).isSome) →
      groupAux fmt entries g l =
        some (l.foldl (fun g f => insertGroup (keyOfFile fmt entries f) f g) g) := by
  induction l with
  | nil => intro g _; rfl
  | cons f fs ih =>
    intro g hall
    have hf : (getmtime entries f).isSome := hall f (List.mem_cons_self f fs)
    obtain ⟨m, hm⟩ := Option.isSome_iff_exists.mp hf
    rw [groupAux, List.foldl_cons]
    have hts : get_file_time_str fmt entries f = some (fmt m) := by
      rw [get_file_time_str, hm]; rfl
    rw [hts]
    have hkey : keyOfFile fmt entries f = fmt m := by
      rw [keyOfFile, hm]; rfl
    rw [← hkey]
    exact ih _ (fun f' hf' => hall f' (List.mem_cons_of_mem f hf'))

theorem groupAux_some (fmt : Nat → String) (entries : List Entry) (l : List String) :
    ∀ (g0 : Grouping) (g : Grouping), groupAux fmt entries g0 l = some g →
      (∀ f ∈ l, (getmtime entries f).isSome) ∧
        g = l.foldl (fun g f => insertGroup (keyOfFile fmt entries f) f g) g0 := by
  induction l with
  | nil =>
    intro g0 g h
    rw [groupAux] at h
    cases h
    exact ⟨(by intro f hf; cases hf), rfl⟩
  | cons f fs ih =>
    intro g0 g h
    rw [groupAux] at h
    rcases hts : get_file_time_str fmt entries f with _ | k
    · rw [hts] at h; cases h
    · rw [hts] at h
      rcases Option.map_eq_some'.mp hts with ⟨m, hm, hk⟩
      have hkey : keyOfFile fmt entries f = k := by
        rw [keyOfFile, hm, ← hk]; rfl
      obtain ⟨hall, heq⟩ := ih _ _ h
      refine ⟨?_, ?_⟩
      · intro f' hf'
        rcases List.mem_cons.mp hf' with h1 | h1
        · rw [h1, hm]; rfl
        · exact hall f' h1
      · rw [List.foldl_cons, hkey, ← heq]

theorem group_by_date_eq_some (fmt : Nat → String) (entries : List Entry)
    (l : List String) (g : Grouping) (h : group_by_date fmt entries l = some g) :
    g = keyedGroups (keyOfFile fmt entries) l :=
  (groupAux_some fmt entries l [] g h).2

theorem group_by_date_of_isSome (fmt : Nat → String) (entries : List Entry)
    (l : List String) (hall : ∀ f ∈ l, (getmtime entries f).isSome) :
    group_by_date fmt entries l = some (keyedGroups (keyOfFile fmt entries) l) :=
  groupAux_eq_foldl fmt entries l [] hall

theorem lookupGroup_isSome_of_mem_keys (k : String) :
    ∀ g : Grouping, k ∈ keysOf g → ∃ fs, lookupGroup k g = some fs := by
  intro g
  induction g with
  | nil => intro h; simp [keysOf] at h
  | cons p rest ih =>
    obtain ⟨a, bs⟩ := p
    intro h
    by_cases hak : a = k
    · exact ⟨bs, by rw [lookupGroup, if_pos hak]⟩
    · rw [keysOf, List.map_cons] at h
      rcases List.mem_cons.mp h with h1 | h1
      · exact absurd h1.symm hak
      · obtain ⟨fs, hfs⟩ := ih h1
        exact ⟨fs, by rw [lookupGroup, if_neg hak]; exact hfs⟩

theorem mem_keyedGroups_eq (keyOf : String → String) (l : List String)
    (k : String) (fs : List String) (h : (k, fs) ∈ keyedGroups keyOf l) :
    fs = l.filter (fun f => keyOf f == k) := by
  have hl := lookupGroup_eq_of_mem k fs (keyedGroups keyOf l)
    (keysOf_keyedGroups_nodup keyOf l) h
  have hat := groupAt_keyedGroups keyOf l k
  rw [groupAt, hl] at hat
  simpa using hat

theorem keyedGroups_mem_self (keyOf : String → String) (l : List String)
    (f : String) (hf : f ∈ l) :
    (keyOf f, l.filter (fun f' => keyOf f' == keyOf f)) ∈ keyedGroups keyOf l := by
  have hk : keyOf f ∈ keysOf (keyedGroups keyOf l) :=
    (mem_keysOf_keyedGroups keyOf l (keyOf f)).mpr ⟨f, hf, rfl⟩
  obtain ⟨fs, hfs⟩ := lookupGroup_isSome_of_mem_keys (keyOf f) (keyedGroups keyOf l) hk
  have hmem := mem_of_lookupGroup (keyOf f) fs (keyedGroups keyOf l) hfs
  have h1 := mem_keyedGroups_eq keyOf l (keyOf f) fs hmem
  rw [← h1]
  exact hmem

/-! ### Claim theorems about the grouping -/

/-- Claim C1: for every input file list and format pattern, each input file
name lies in exactly one group of the grouping `group_by_date` produces,
and the concatenation of all groups' member lists is a permutation of the
input list: nothing is added and nothing is dropped. -/
theorem grouping_partitions_input (fmt : Nat → String) (entries : List Entry)
    (l : List String) (g : Grouping) (hg : group_by_date fmt entries l = some g) :
    (∀ f ∈ l, ∃! p : String × List String, p ∈ g ∧ f ∈ p.2) ∧
      List.Perm ((g.map Prod.snd).flatten) l := by
  have hgk := group_by_date_eq_some fmt entries l g hg
  subst hgk
  refine ⟨?_, snds_flatten_keyedGroups _ l⟩
  intro f hf
  refine ⟨(keyOfFile fmt entries f,
      l.filter (fun f' => keyOfFile fmt entries f' == keyOfFile fmt entries f)),
    ⟨keyedGroups_mem_self _ l f hf, ?_⟩, ?_⟩
  · exact List.mem_filter.mpr ⟨hf, beq_self_eq_true _⟩
  · rintro ⟨k', fs'⟩ ⟨hmem, hfmem⟩
    have hfs' := mem_keyedGroups_eq _ l k' fs' hmem
    have hk' : keyOfFile fmt entries f = k' := by
      rw [hfs'] at hfmem
      exact eq_of_beq (List.mem_filter.mp hfmem).2
    subst hk'
    rw [hfs']

/-- Instance of C1 on a two-file directory: the flattened grouping is a
permutation of the input list. -/
theorem grouping_partitions_input_witness :
    List.Perm ((([("1", ["a"]), ("2", ["b"])] : Grouping).map Prod.snd).flatten)
      ["a", "b"] :=
  (grouping_partitions_input Nat.repr exDir ["a", "b"]
    [("1", ["a"]), ("2", ["b"])] (by decide)).2

/-- Claim C6: in a grouping produced by `group_by_date`, keys are unique
and stand in first-occurrence order of the scan, and each group's member
list is the input list restricted to that key, hence in input order. -/
theorem grouping_key_and_member_order (fmt : Nat → String) (entries : List Entry)
    (l : List String) (g : Grouping) (hg : group_by_date fmt entries l = some g) :
    (keysOf g).Nodup ∧ keysOf g = firstOccKeys (keyOfFile fmt entries) l ∧
      ∀ k fs, (k, fs) ∈ g → fs = l.filter (fun f => keyOfFile fmt entries f == k) := by
  have hgk := group_by_date_eq_some fmt entries l g hg
  subst hgk
  exact ⟨keysOf_keyedGroups_nodup _ l, keysOf_keyedGroups _ l,
    fun k fs h => mem_keyedGroups_eq _ l k fs h⟩

/-- Instance of C6 on a two-file directory: the grouping's keys equal the
first-occurrence keys of the scan. -/
theorem grouping_key_and_member_order_witness :
    keysOf [("1", ["a"]), ("2", ["b"])] = firstOccKeys (keyOfFile Nat.repr exDir) ["a", "b"] :=
  (grouping_key_and_member_order Nat.repr exDir ["a", "b"]
    [("1", ["a"]), ("2", ["b"])] (by decide)).2.1

/-- Claim C7: the grouper is deterministic: two invocations on the same
directory state, the same file list and the same format function return
identical groupings. -/
theorem grouper_deterministic (fmt1 fmt2 : Nat → String) (e1 e2 : List Entry)
    (l1 l2 : List String) (hf : fmt1 = fmt2) (he : e1 = e2) (hl : l1 = l2) :
    group_by_date fmt1 e1 l1 = group_by_date fmt2 e2 l2 := by
  subst hf; subst he; subst hl; rfl

/-- Instance of C7 at concrete inputs. -/
theorem grouper_deterministic_witness :
    group_by_date Nat.repr exDir ["a", "b"] = group_by_date Nat.repr exDir ["a", "b"] :=
  grouper_deterministic Nat.repr Nat.repr exDir exDir ["a", "b"] ["a", "b"] rfl rfl rfl

/-- Claim C10: every group of a grouping is non-empty, and on an empty
input the grouping is empty, the reporter prints nothing, the mover leaves
any state unchanged with no events, and a full run on an empty directory
mutates nothing. -/
theorem groups_nonempty_and_empty_input_noop (fmt : Nat → String)
    (entries : List Entry) (l : List String) (g : Grouping) (st : List Entry)
    (pwd : String) (sim : Bool) (hg : group_by_date fmt entries l = some g) :
    (∀ k fs, (k, fs) ∈ g → fs ≠ []) ∧
      group_by_date fmt entries [] = some [] ∧
      print_group_info [] = [] ∧
      do_move st [] = ([], some st) ∧
      runMain pwd fmt sim (Target.dir []) = ([], some (Target.dir [])) := by
  refine ⟨?_, rfl, rfl, rfl, ?_⟩
  · intro k fs hmem
    have hgk := group_by_date_eq_some fmt entries l g hg
    subst hgk
    have hfs := mem_keyedGroups_eq _ l k fs hmem
    have hkmem : k ∈ keysOf (keyedGroups (keyOfFile fmt entries) l) := by
      rw [keysOf]; exact List.mem_map.mpr ⟨(k, fs), hmem, rfl⟩
    obtain ⟨f, hfl, hfk⟩ := (mem_keysOf_keyedGroups _ l k).mp hkmem
    intro hnil
    have hfmem : f ∈ l.filter (fun f' => keyOfFile fmt entries f' == k) :=
      List.mem_filter.mpr ⟨hfl, by simp [hfk]⟩
    rw [← hfs, hnil] at hfmem
    cases hfmem
  · cases sim <;> rfl

/-- Instance of C10 on a two-file directory: the singleton groups are
non-empty. -/
theorem groups_nonempty_and_empty_input_noop_witness :
    (["a"] : List String) ≠ [] :=
  (groups_nonempty_and_empty_input_noop Nat.repr exDir ["a", "b"]
      [("1", ["a"]), ("2", ["b"])] [] "p" true (by decide)).1
    "1" ["a"] (by decide)

/-- Claim C5: a missing target path and a target path that is a regular
file are rejected with a printed diagnostic and abnormal termination
before any mutation, and they are the only checked error conditions: on a
directory the lister always succeeds. -/
theorem invalid_target_rejected (pwd : String) (fmt : Nat → String) (sim : Bool) :
    get_file_list pwd Target.missing =
        Except.error (String.append "No such folder: " pwd) ∧
      get_file_list pwd Target.plainFile =
        Except.error (String.append pwd " is a file.") ∧
      runMain pwd fmt sim Target.missing =
        ([Event.out (String.append "No such folder: " pwd)], none) ∧
      runMain pwd fmt sim Target.plainFile =
        ([Event.out (String.append pwd " is a file.")], none) ∧
      ∀ entries, get_file_list pwd (Target.dir entries) = Except.ok (listFiles entries) :=
  ⟨rfl, rfl, rfl, rfl, fun _ => rfl⟩

/-- Instance of C5: a run on a missing path only prints the diagnostic and
terminates abnormally. -/
theorem invalid_target_rejected_witness :
    runMain "p" Nat.repr true Target.missing =
      ([Event.out (String.append "No such folder: " "p")], none) :=
  (invalid_target_rejected "p" Nat.repr true).2.2.1

/-- Claim C9: a non-simulation run rebuilds the grouping from a second
fresh listing before moving; since the preview mutates nothing, this
two-scan run is equal to the single-scan variant that hands the previewed
grouping itself to the mover. -/
theorem second_scan_matches_single_scan (pwd : String) (fmt : Nat → String)
    (t : Target) : runMain pwd fmt false t = runOnePass pwd fmt t := by
  cases t with
  | missing => rfl
  | plainFile => rfl
  | dir entries =>
    cases h : group_by_date fmt entries (listFiles entries) <;>
      simp [runMain, runOnePass, h]

/-- Instance of C9 at a concrete directory. -/
theorem second_scan_matches_single_scan_witness :
    runMain "p" Nat.repr false (Target.dir exDir) = runOnePass "p" Nat.repr (Target.dir exDir) :=
  second_scan_matches_single_scan "p" Nat.repr (Target.dir exDir)

/-! ### Properties of the directory lister -/

theorem mem_listFiles_iff (entries : List Entry) (n : String) :
    n ∈ listFiles entries ↔
      (∃ m, Entry.file ⟨n, m⟩ ∈ entries) ∧ n ∉ systemFiles ∧ startsWithDot n = false := by
  rw [listFiles]
  constructor
  · intro h
    rcases List.mem_map.mp h with ⟨e, he, rfl⟩
    obtain ⟨hmem, hgood⟩ := List.mem_filter.mp he
    rw [goodEntry, Bool.and_eq_true, Bool.and_eq_true] at hgood
    obtain ⟨⟨hfile, hsys⟩, hdot⟩ := hgood
    cases e with
    | subdir a b => simp [Entry.isFile] at hfile
    | file ff =>
      refine ⟨⟨ff.mtime, hmem⟩, ?_, ?_⟩
      · rw [Bool.not_eq_true'] at hsys
        simp at hsys
        exact hsys
      · rw [Bool.not_eq_true'] at hdot
        exact hdot
  · rintro ⟨⟨m, hmem⟩, hsys, hdot⟩
    refine List.mem_map.mpr ⟨Entry.file ⟨n, m⟩, List.mem_filter.mpr ⟨hmem, ?_⟩, rfl⟩
    rw [goodEntry, Bool.and_eq_true, Bool.and_eq_true]
    refine ⟨⟨rfl, ?_⟩, ?_⟩
    · rw [Bool.not_eq_true']
      simpa using hsys
    · rw [Bool.not_eq_true']
      exact hdot

theorem name_injective_of_nodup (entries : List Entry)
    (h : (entryNames entries).Nodup) (e1 e2 : Entry) (h1 : e1 ∈ entries)
    (h2 : e2 ∈ entries) (heq : e1.name = e2.name) : e1 = e2 := by
  rw [entryNames] at h
  exact List.inj_on_of_nodup_map h h1 h2 heq

theorem listFiles_nodup (entries : List Entry) (h : (entryNames entries).Nodup) :
    (listFiles entries).Nodup := by
  rw [listFiles]
  have hsub : List.Sublist ((entries.filter goodEntry).map Entry.name)
      (entries.map Entry.name) :=
    List.Sublist.map Entry.name (List.filter_sublist entries)
  rw [entryNames] at h
  exact List.Nodup.sublist hsub h

theorem listFiles_sub_entryNames (entries : List Entry) (n : String)
    (hn : n ∈ listFiles entries) : n ∈ entryNames entries := by
  rw [listFiles] at hn
  rw [entryNames]
  exact List.Sublist.mem hn (List.Sublist.map Entry.name (List.filter_sublist entries))

/-- Claim C4: on any directory listing with distinct entry names, the
lister returns exactly the regular files whose names are not in the
case-sensitive deny-list and do not start with the hidden-file marker,
with no duplicates; subdirectory names are not listed, and nothing outside
the top-level listing appears. -/
theorem lister_filters_exactly (entries : List Entry)
    (h : (entryNames entries).Nodup) :
    (∀ n, n ∈ listFiles entries ↔
        (∃ m, Entry.file ⟨n, m⟩ ∈ entries) ∧ n ∉ systemFiles ∧ startsWithDot n = false) ∧
      (listFiles entries).Nodup ∧
      (∀ d cs, Entry.subdir d cs ∈ entries → d ∉ listFiles entries) ∧
      (∀ n ∈ listFiles entries, n ∈ entryNames entries) := by
  refine ⟨fun n => mem_listFiles_iff entries n, listFiles_nodup entries h, ?_,
    fun n hn => listFiles_sub_entryNames entries n hn⟩
  intro d cs hmem hc
  obtain ⟨⟨m, hf⟩, _, _⟩ := (mem_listFiles_iff entries d).mp hc
  have heq := name_injective_of_nodup entries h _ _ hf hmem rfl
  cases heq

/-- Instance of C4 on a mixed listing: the case-variant `Desktop.ini` is
listed (the deny-list is case-sensitive) and the output has no duplicates. -/
theorem lister_filters_exactly_witness :
    "Desktop.ini" ∈ listFiles exMix ∧ (listFiles exMix).Nodup := by
  have h := lister_filters_exactly exMix (by decide)
  exact ⟨(h.1 "Desktop.ini").mpr ⟨⟨5, by decide⟩, by decide, by decide⟩, h.2.1⟩

theorem getmtime_of_mem_listFiles (entries : List Entry)
    (h : (entryNames entries).Nodup) (f : String) (hf : f ∈ listFiles entries) :
    ∃ m, getmtime entries f = some m ∧ Entry.file ⟨f, m⟩ ∈ entries := by
  obtain ⟨⟨m, hmem⟩, _, _⟩ := (mem_listFiles_iff entries f).mp hf
  refine ⟨m, ?_, hmem⟩
  rcases hfind : entries.find? (fun e => e.name == f) with _ | e
  · have h2 := List.find?_eq_none.mp hfind _ hmem
    simp [Entry.name] at h2
  · have hp := List.find?_some hfind
    have he := List.mem_of_find?_eq_some hfind
    have hname : e.name = f := by simpa using hp
    have heq : e = Entry.file ⟨f, m⟩ :=
      name_injective_of_nodup entries h e _ he hmem (by rw [hname]; rfl)
    rw [getmtime, hfind, heq]

theorem group_by_date_listFiles (fmt : Nat → String) (entries : List Entry)
    (h : (entryNames entries).Nodup) :
    group_by_date fmt entries (listFiles entries) = some (theGrouping fmt entries) := by
  refine group_by_date_of_isSome fmt entries (listFiles entries) (fun f hf => ?_)
  obtain ⟨m, hm, _⟩ := getmtime_of_mem_listFiles entries h f hf
  rw [hm]
  rfl

theorem runMain_dir (pwd : String) (fmt : Nat → String) (sim : Bool)
    (entries : List Entry) (h : (entryNames entries).Nodup) :
    runMain pwd fmt sim (Target.dir entries) =
      (if sim then
        ((print_group_info (theGrouping fmt entries)).map Event.out,
          some (Target.dir entries))
       else
        ((print_group_info (theGrouping fmt entries)).map Event.out
            ++ (do_move entries (theGrouping fmt entries)).1,
          (do_move entries (theGrouping fmt entries)).2.map Target.dir)) := by
  have hg := group_by_date_listFiles fmt entries h
  cases sim
  · simp only [runMain, hg, Bool.false_eq_true, if_false]
    rcases hdm : do_move entries (theGrouping fmt entries) with ⟨evs, r⟩
    cases r <;> simp
  · simp only [runMain, hg, if_true]

/-- Claim C3: a simulation run prints exactly the grouped preview and
leaves the directory state untouched: its trace has no directory creation
and no rename, and the final state equals the initial one. -/
theorem simulation_run_mutates_nothing (pwd : String) (fmt : Nat → String)
    (entries : List Entry) (h : (entryNames entries).Nodup) :
    runMain pwd fmt true (Target.dir entries) =
      ((print_group_info (theGrouping fmt entries)).map Event.out,
        some (Target.dir entries)) := by
  rw [runMain_dir pwd fmt true entries h]
  simp

/-- Instance of C3 at a concrete directory. -/
theorem simulation_run_mutates_nothing_witness :
    runMain "p" Nat.repr true (Target.dir exDir) =
      ((print_group_info (theGrouping Nat.repr exDir)).map Event.out,
        some (Target.dir exDir)) :=
  simulation_run_mutates_nothing "p" Nat.repr exDir (by decide)

/-- Claim C8: in both run modes, the event trace of a run on a directory
begins with the full grouped preview: every directory creation and rename
comes after the complete preview output. -/
theorem preview_precedes_mutations (pwd : String) (fmt : Nat → String)
    (sim : Bool) (entries : List Entry) (h : (entryNames entries).Nodup) :
    (runMain pwd fmt sim (Target.dir entries)).1.take
        ((print_group_info (theGrouping fmt entries)).map Event.out).length
      = (print_group_info (theGrouping fmt entries)).map Event.out := by
  rw [runMain_dir pwd fmt sim entries h]
  cases sim
  · simp only [Bool.false_eq_true, if_false]
    exact List.take_left _ _
  · simp only [if_true]
    exact List.take_length _

/-- Instance of C8 at a concrete directory in non-simulation mode. -/
theorem preview_precedes_mutations_witness :
    (runMain "p" Nat.repr false (Target.dir exDir)).1.take
        ((print_group_info (theGrouping Nat.repr exDir)).map Event.out).length
      = (print_group_info (theGrouping Nat.repr exDir)).map Event.out :=
  preview_precedes_mutations "p" Nat.repr false exDir (by decide)

/-! ### Properties of the mover -/

@[simp]
theorem entryNames_append (a b : List Entry) :
    entryNames (a ++ b) = entryNames a ++ entryNames b := by
  simp [entryNames]

@[simp]
theorem entryNames_cons (e : Entry) (a : List Entry) :
    entryNames (e :: a) = e.name :: entryNames a := by
  simp [entryNames]

@[simp]
theorem topFileNames_append (a b : List Entry) :
    topFileNames (a ++ b) = topFileNames a ++ topFileNames b := by
  simp [topFileNames, List.filter_append]

@[simp]
theorem topFileNames_file_cons (ff : FileEnt) (a : List Entry) :
    topFileNames (Entry.file ff :: a) = ff.name :: topFileNames a := by
  simp [topFileNames, List.filter_cons, Entry.isFile, Entry.name]

@[simp]
theorem topFileNames_subdir_cons (n : String) (cs : List FileEnt) (a : List Entry) :
    topFileNames (Entry.subdir n cs :: a) = topFileNames a := by
  simp [topFileNames, List.filter_cons, Entry.isFile]

@[simp]
theorem inDir_append (a b : List Entry) (d f : String) :
    inDir (a ++ b) d f = (inDir a d f || inDir b d f) := by
  simp [inDir, List.any_append]

@[simp]
theorem inDir_cons (e : Entry) (a : List Entry) (d f : String) :
    inDir (e :: a) d f = (dirHasFile d f e || inDir a d f) := by
  simp [inDir]

@[simp]
theorem hasDir_append (a b : List Entry) (d : String) :
    hasDir (a ++ b) d = (hasDir a d || hasDir b d) := by
  simp [hasDir, List.any_append]

@[simp]
theorem hasDir_cons (e : Entry) (a : List Entry) (d : String) :
    hasDir (e :: a) d = (isSubdirNamed d e || hasDir a d) := by
  simp [hasDir]

theorem removeFile_eq (f : String) :
    ∀ (st st1 : List Entry) (ff : FileEnt), removeFile st f = some (ff, st1) →
      ff.name = f ∧ ∃ pre post, st = pre ++ Entry.file ff :: post ∧
        st1 = pre ++ post ∧ ∀ e ∈ pre, e.name ≠ f := by
  intro st
  induction st with
  | nil => intro st1 ff h; cases h
  | cons e rest ih =>
    intro st1 ff h
    cases e with
    | file f0 =>
      by_cases hname : (Entry.file f0).name = f
      · rw [removeFile, if_pos hname] at h
        obtain ⟨h1, h2⟩ := Prod.mk.inj (Option.some.inj h)
        subst h1
        refine ⟨hname, [], rest, rfl, h2.symm ▸ rfl, by intro e he; cases he⟩
      · rw [removeFile, if_neg hname] at h
        rcases hrec : removeFile rest f with _ | p
        · rw [hrec] at h; cases h
        · rw [hrec] at h
          obtain ⟨pf, pr⟩ := p
          obtain ⟨h1, h2⟩ := Prod.mk.inj (Option.some.inj h)
          obtain ⟨hn, pre, post, hsplit, hst1, hpre⟩ := ih pr pf hrec
          subst h1
          refine ⟨hn, Entry.file f0 :: pre, post, by rw [hsplit]; rfl, ?_, ?_⟩
          · rw [← h2, hst1]; rfl
          · intro e' he'
            rcases List.mem_cons.mp he' with h3 | h3
            · rw [h3]; exact hname
            · exact hpre e' h3
    | subdir n cs =>
      by_cases hname : (Entry.subdir n cs).name = f
      · rw [removeFile, if_pos hname] at h
        cases h
      · rw [removeFile, if_neg hname] at h
        rcases hrec : removeFile rest f with _ | p
        · rw [hrec] at h; cases h
        · rw [hrec] at h
          obtain ⟨pf, pr⟩ := p
          obtain ⟨h1, h2⟩ := Prod.mk.inj (Option.some.inj h)
          obtain ⟨hn, pre, post, hsplit, hst1, hpre⟩ := ih pr pf hrec
          subst h1
          refine ⟨hn, Entry.subdir n cs :: pre, post, by rw [hsplit]; rfl, ?_, ?_⟩
          · rw [← h2, hst1]; rfl
          · intro e' he'
            rcases List.mem_cons.mp he' with h3 | h3
            · rw [h3]; exact hname
            · exact hpre e' h3

theorem addToDir_eq (d : String) (ff : FileEnt) :
    ∀ (st st' : List Entry), addToDir st d ff = some st' →
      ∃ pre cs post, st = pre ++ Entry.subdir d cs :: post ∧
        st' = pre ++ Entry.subdir d (cs ++ [ff]) :: post ∧
        (∀ e ∈ pre, e.name ≠ d) := by
  intro st
  induction st with
  | nil => intro st' h; cases h
  | cons e rest ih =>
    intro st' h
    cases e with
    | subdir n cs =>
      by_cases hname : (Entry.subdir n cs).name = d
      · rw [addToDir, if_pos hname] at h
        rcases hcol : cs.any (fun c => c.name == ff.name) with _ | _
        · rw [hcol] at h
          rw [if_neg (by simp)] at h
          have hst' := Option.some.inj h
          have hnd : n = d := hname
          subst hnd
          exact ⟨[], cs, rest, rfl, hst'.symm, by intro e he; cases he⟩
        · rw [hcol] at h
          rw [if_pos rfl] at h
          cases h
      · rw [addToDir, if_neg hname] at h
        rcases hrec : addToDir rest d ff with _ | r
        · rw [hrec] at h; cases h
        · rw [hrec] at h
          have hst' := Option.some.inj h
          obtain ⟨pre, cs', post, hsplit, hr, hpre⟩ := ih r hrec
          refine ⟨Entry.subdir n cs :: pre, cs', post, by rw [hsplit]; rfl, ?_, ?_⟩
          · rw [← hst', hr]; rfl
          · intro e' he'
            rcases List.mem_cons.mp he' with h3 | h3
            · rw [h3]; exact hname
            · exact hpre e' h3
    | file f0 =>
      by_cases hname : (Entry.file f0).name = d
      · rw [addToDir, if_pos hname] at h
        cases h
      · rw [addToDir, if_neg hname] at h
        rcases hrec : addToDir rest d ff with _ | r
        · rw [hrec] at h; cases h
        · rw [hrec] at h
          have hst' := Option.some.inj h
          obtain ⟨pre, cs', post, hsplit, hr, hpre⟩ := ih r hrec
          refine ⟨Entry.file f0 :: pre, cs', post, by rw [hsplit]; rfl, ?_, ?_⟩
          · rw [← hst', hr]; rfl
          · intro e' he'
            rcases List.mem_cons.mp he' with h3 | h3
            · rw [h3]; exact hname
            · exact hpre e' h3

theorem topFileNames_sublist_entryNames (st : List Entry) :
    List.Sublist (topFileNames st) (entryNames st) :=
  List.Sublist.map Entry.name (List.filter_sublist st)

theorem addToDir_entryNames (st st' : List Entry) (d : String) (ff : FileEnt)
    (h : addToDir st d ff = some st') : entryNames st' = entryNames st := by
  obtain ⟨pre, cs, post, h1, h2, _⟩ := addToDir_eq d ff st st' h
  subst h1; subst h2
  simp [Entry.name]

theorem addToDir_topFileNames (st st' : List Entry) (d : String) (ff : FileEnt)
    (h : addToDir st d ff = some st') : topFileNames st' = topFileNames st := by
  obtain ⟨pre, cs, post, h1, h2, _⟩ := addToDir_eq d ff st st' h
  subst h1; subst h2
  simp

theorem addToDir_inDir_self (st st' : List Entry) (d : String) (ff : FileEnt)
    (h : addToDir st d ff = some st') : inDir st' d ff.name = true := by
  obtain ⟨pre, cs, post, h1, h2, _⟩ := addToDir_eq d ff st st' h
  subst h1; subst h2
  simp [dirHasFile]

theorem addToDir_inDir_mono (st st' : List Entry) (d : String) (ff : FileEnt)
    (h : addToDir st d ff = some st') (d' n : String)
    (hin : inDir st d' n = true) : inDir st' d' n = true := by
  obtain ⟨pre, cs, post, h1, h2, _⟩ := addToDir_eq d ff st st' h
  subst h1; subst h2
  simp only [inDir_append, inDir_cons, Bool.or_eq_true] at hin ⊢
  rcases hin with h | h | h
  · exact Or.inl h
  · refine Or.inr (Or.inl ?_)
    simp only [dirHasFile, Bool.and_eq_true, List.any_append, Bool.or_eq_true] at h ⊢
    exact ⟨h.1, Or.inl h.2⟩
  · exact Or.inr (Or.inr h)

theorem addToDir_hasDir (st st' : List Entry) (d : String) (ff : FileEnt)
    (h : addToDir st d ff = some st') (d' : String) :
    hasDir st' d' = hasDir st d' := by
  obtain ⟨pre, cs, post, h1, h2, _⟩ := addToDir_eq d ff st st' h
  subst h1; subst h2
  simp [isSubdirNamed]

theorem removeFile_entryNames (st st1 : List Entry) (f : String) (ff : FileEnt)
    (h : removeFile st f = some (ff, st1)) :
    entryNames st1 = (entryNames st).erase f := by
  obtain ⟨hn, pre, post, h1, h2, hpre⟩ := removeFile_eq f st st1 ff h
  subst h1; subst h2
  have hf : f ∉ entryNames pre := by
    rw [entryNames]
    intro hc
    rcases List.mem_map.mp hc with ⟨e, he, hne⟩
    exact hpre e he hne
  rw [entryNames_append, entryNames_append, entryNames_cons,
    List.erase_append_right _ hf]
  simp [Entry.name, hn]

theorem removeFile_topFileNames (st st1 : List Entry) (f : String) (ff : FileEnt)
    (h : removeFile st f = some (ff, st1)) :
    topFileNames st1 = (topFileNames st).erase f := by
  obtain ⟨hn, pre, post, h1, h2, hpre⟩ := removeFile_eq f st st1 ff h
  subst h1; subst h2
  have hf : f ∉ topFileNames pre := by
    intro hc
    have hc2 := List.Sublist.mem hc (topFileNames_sublist_entryNames pre)
    rw [entryNames] at hc2
    rcases List.mem_map.mp hc2 with ⟨e, he, hne⟩
    exact hpre e he hne
  rw [topFileNames_append, topFileNames_append, topFileNames_file_cons,
    List.erase_append_right _ hf, hn, List.erase_cons_head]

theorem removeFile_inDir (st st1 : List Entry) (f : String) (ff : FileEnt)
    (h : removeFile st f = some (ff, st1)) (d' n : String) :
    inDir st1 d' n = inDir st d' n := by
  obtain ⟨hn, pre, post, h1, h2, hpre⟩ := removeFile_eq f st st1 ff h
  subst h1; subst h2
  simp [dirHasFile]

theorem removeFile_hasDir (st st1 : List Entry) (f : String) (ff : FileEnt)
    (h : removeFile st f = some (ff, st1)) (d' : String) :
    hasDir st1 d' = hasDir st d' := by
  obtain ⟨hn, pre, post, h1, h2, hpre⟩ := removeFile_eq f st st1 ff h
  subst h1; subst h2
  simp [isSubdirNamed]

theorem moveOne_spec (st st' : List Entry) (d f : String)
    (h : moveOne st d f = some st') :
    entryNames st' = (entryNames st).erase f ∧
      topFileNames st' = (topFileNames st).erase f ∧
      inDir st' d f = true ∧
      (∀ d' n, inDir st d' n = true → inDir st' d' n = true) ∧
      (∀ d', hasDir st' d' = hasDir st d') := by
  rw [moveOne] at h
  rcases hrf : removeFile st f with _ | p
  · rw [hrf] at h; cases h
  · rw [hrf] at h
    obtain ⟨ff, st1⟩ := p
    have hname : ff.name = f := (removeFile_eq f st st1 ff hrf).1
    refine ⟨?_, ?_, ?_, ?_, ?_⟩
    · rw [addToDir_entryNames st1 st' d ff h,
        removeFile_entryNames st st1 f ff hrf]
    · rw [addToDir_topFileNames st1 st' d ff h,
        removeFile_topFileNames st st1 f ff hrf]
    · have := addToDir_inDir_self st1 st' d ff h
      rw [hname] at this
      exact this
    · intro d' n hin
      refine addToDir_inDir_mono st1 st' d ff h d' n ?_
      rw [removeFile_inDir st st1 f ff hrf]
      exact hin
    · intro d'
      rw [addToDir_hasDir st1 st' d ff h, removeFile_hasDir st st1 f ff hrf]

@[simp]
theorem entryNames_nil : entryNames [] = [] := rfl

@[simp]
theorem topFileNames_nil : topFileNames [] = [] := rfl

@[simp]
theorem inDir_nil (d f : String) : inDir [] d f = false := rfl

@[simp]
theorem hasDir_nil (d : String) : hasDir [] d = false := rfl

theorem mkdirState_top (st : List Entry) (k : String) :
    topFileNames (st ++ [Entry.subdir k []]) = topFileNames st := by
  simp

theorem mkdirState_inDir (st : List Entry) (k d f : String) :
    inDir (st ++ [Entry.subdir k []]) d f = inDir st d f := by
  simp [dirHasFile]

theorem mkdirState_hasDir (st : List Entry) (k d : String) :
    hasDir (st ++ [Entry.subdir k []]) d = (hasDir st d || (k == d)) := by
  simp [isSubdirNamed]

theorem mkdirState_names (st : List Entry) (k : String) :
    entryNames (st ++ [Entry.subdir k []]) = entryNames st ++ [k] := by
  simp [Entry.name]

theorem existsName_eq_false_iff (st : List Entry) (k : String) :
    existsName st k = false ↔ k ∉ entryNames st := by
  rw [existsName, entryNames]
  constructor
  · intro h hc
    rcases List.mem_map.mp hc with ⟨e, he, hne⟩
    have hh : (e.name == k) = true := by rw [hne]; exact beq_self_eq_true k
    have hany : st.any (fun e => e.name == k) = true := List.any_eq_true.mpr ⟨e, he, hh⟩
    rw [hany] at h
    cases h
  · intro h
    rcases hb : st.any (fun e => e.name == k) with _ | _
    · rfl
    · rcases List.any_eq_true.mp hb with ⟨e, he, hp⟩
      exact absurd (List.mem_map.mpr ⟨e, he, by simpa using hp⟩) h

theorem hasDir_true_existsName (st : List Entry) (d : String)
    (h : hasDir st d = true) : existsName st d = true := by
  rcases List.any_eq_true.mp h with ⟨e, he, hp⟩
  refine List.any_eq_true.mpr ⟨e, he, ?_⟩
  cases e with
  | file f0 => cases hp
  | subdir n cs => simpa [isSubdirNamed, Entry.name] using hp

theorem subdir_mem_hasDir (st : List Entry) (d : String) (cs : List FileEnt)
    (h : Entry.subdir d cs ∈ st) : hasDir st d = true :=
  List.any_eq_true.mpr ⟨Entry.subdir d cs, h, by simp [isSubdirNamed]⟩

theorem moveFiles_spec (d : String) :
    ∀ (fs : List String) (st st' : List Entry) (tr : List Event),
      moveFiles d st fs = (tr, some st') →
      List.Sublist (topFileNames st') (topFileNames st) ∧
        (∀ d' n, inDir st d' n = true → inDir st' d' n = true) ∧
        (∀ d', hasDir st' d' = hasDir st d') ∧
        List.Sublist (entryNames st') (entryNames st) ∧
        tr = fs.map (fun f => Event.rename f d) ∧
        ((topFileNames st).Nodup →
          ∀ f ∈ fs, inDir st' d f = true ∧ f ∉ topFileNames st') := by
  intro fs
  induction fs with
  | nil =>
    intro st st' tr h
    rw [moveFiles] at h
    obtain ⟨h1, h2⟩ := Prod.mk.inj h
    cases h2
    refine ⟨List.Sublist.refl _, fun d' n hin => hin, fun d' => rfl,
      List.Sublist.refl _, h1.symm, ?_⟩
    intro _ f hf
    cases hf
  | cons f fs ih =>
    intro st st' tr h
    rw [moveFiles] at h
    rcases hmo : moveOne st d f with _ | st1
    · rw [hmo] at h
      obtain ⟨_, h2⟩ := Prod.mk.inj h
      cases h2
    · rw [hmo] at h
      dsimp only at h
      rcases hmf : moveFiles d st1 fs with ⟨tr2, r2⟩
      rw [hmf] at h
      dsimp only at h
      obtain ⟨h1, h2⟩ := Prod.mk.inj h
      subst h2
      obtain ⟨hen, htop, hself, hmono, hhd⟩ := moveOne_spec st st1 d f hmo
      obtain ⟨rtop, rmono, rhd, ren, rtr, rplace⟩ :=
        ih st1 st' tr2 hmf
      have htops : List.Sublist (topFileNames st') (topFileNames st) := by
        refine rtop.trans ?_
        rw [htop]
        exact List.erase_sublist f _
      refine ⟨htops, ?_, ?_, ?_, ?_, ?_⟩
      · intro d' n hin
        exact rmono d' n (hmono d' n hin)
      · intro d'
        rw [rhd d', hhd d']
      · refine ren.trans ?_
        rw [hen]
        exact List.erase_sublist f _
      · rw [← h1, rtr, List.map_cons]
      · intro hnd f' hf'
        have hnd1 : (topFileNames st1).Nodup := by
          rw [htop]
          exact List.Nodup.erase f hnd
        rcases List.mem_cons.mp hf' with h3 | h3
        · subst h3
          refine ⟨rmono d f' hself, ?_⟩
          intro hc
          have hc1 : f' ∈ topFileNames st1 := List.Sublist.mem hc rtop
          rw [htop] at hc1
          exact absurd hc1 (by
            intro hx
            exact (List.Nodup.mem_erase_iff hnd).mp hx |>.1 rfl)
        · exact rplace hnd1 f' h3

theorem moveGroup_spec (st st' : List Entry) (k : String) (fs : List String)
    (tr : List Event) (h : moveGroup st k fs = (tr, some st')) :
    List.Sublist (topFileNames st') (topFileNames st) ∧
      (∀ d' n, inDir st d' n = true → inDir st' d' n = true) ∧
      (∀ d', hasDir st d' = true → hasDir st' d' = true) ∧
      ((entryNames st).Nodup → (entryNames st').Nodup) ∧
      (∀ d', Event.mkdir d' ∈ tr → hasDir st d' = false) ∧
      tr.filter Event.isRename = fs.map (fun f => Event.rename f k) ∧
      ((topFileNames st).Nodup →
        ∀ f ∈ fs, inDir st' k f = true ∧ f ∉ topFileNames st') := by
  rw [moveGroup] at h
  by_cases hex : existsName st k = true
  · rw [if_pos hex] at h
    obtain ⟨mtop, mmono, mhd, men, mtr, mplace⟩ := moveFiles_spec k fs st st' tr h
    refine ⟨mtop, mmono, ?_, ?_, ?_, ?_, mplace⟩
    · intro d' hd
      rw [mhd d']
      exact hd
    · intro hnd
      exact List.Nodup.sublist men hnd
    · intro d' hmem
      rw [mtr] at hmem
      rcases List.mem_map.mp hmem with ⟨f, _, hne⟩
      cases hne
    · rw [mtr]
      simp [Event.isRename]
  · have hex2 : existsName st k = false := by
      rcases hb : existsName st k with _ | _
      · rfl
      · exact absurd hb hex
    rw [if_neg hex] at h
    rcases hmf : moveFiles k (st ++ [Entry.subdir k []]) fs with ⟨tr2, r2⟩
    rw [hmf] at h
    dsimp only at h
    obtain ⟨h1, h2⟩ := Prod.mk.inj h
    subst h2
    obtain ⟨mtop, mmono, mhd, men, mtr, mplace⟩ :=
      moveFiles_spec k fs (st ++ [Entry.subdir k []]) st' tr2 hmf
    have hknotin : k ∉ entryNames st := (existsName_eq_false_iff st k).mp hex2
    refine ⟨?_, ?_, ?_, ?_, ?_, ?_, ?_⟩
    · rw [mkdirState_top st k] at mtop
      exact mtop
    · intro d' n hin
      refine mmono d' n ?_
      rw [mkdirState_inDir st k d' n]
      exact hin
    · intro d' hd
      rw [mhd d', mkdirState_hasDir st k d', hd]
      rfl
    · intro hnd
      refine List.Nodup.sublist men ?_
      rw [mkdirState_names st k, ← List.concat_eq_append]
      exact List.Nodup.concat hknotin hnd
    · intro d' hmem
      rw [← h1] at hmem
      rcases List.mem_cons.mp hmem with h3 | h3
      · have hdk : d' = k := Event.mkdir.inj h3
        subst hdk
        rcases hb : hasDir st d' with _ | _
        · rfl
        · exact absurd (hasDir_true_existsName st d' hb) hex
      · rw [mtr] at h3
        rcases List.mem_map.mp h3 with ⟨f, _, hne⟩
        cases hne
    · rw [← h1, mtr]
      simp [Event.isRename]
    · intro hnd f hf
      rw [← mkdirState_top st k] at hnd
      exact mplace hnd f hf

theorem do_move_spec (g : Grouping) :
    ∀ (st st' : List Entry) (tr : List Event),
      do_move st g = (tr, some st') →
      List.Sublist (topFileNames st') (topFileNames st) ∧
        (∀ d' n, inDir st d' n = true → inDir st' d' n = true) ∧
        (∀ d', hasDir st d' = true → hasDir st' d' = true) ∧
        ((entryNames st).Nodup → (entryNames st').Nodup) ∧
        (∀ d', Event.mkdir d' ∈ tr → hasDir st d' = false) ∧
        tr.filter Event.isRename = renameTrace g ∧
        ((entryNames st).Nodup →
          ∀ k fs, (k, fs) ∈ g → ∀ f ∈ fs,
            inDir st' k f = true ∧ f ∉ topFileNames st') := by
  induction g with
  | nil =>
    intro st st' tr h
    rw [do_move] at h
    obtain ⟨h1, h2⟩ := Prod.mk.inj h
    cases h2
    subst h1
    refine ⟨List.Sublist.refl _, fun d' n hin => hin, fun d' hd => hd,
      fun hnd => hnd, ?_, rfl, ?_⟩
    · intro d' hmem
      cases hmem
    · intro _ k fs hmem
      cases hmem
  | cons p rest ih =>
    obtain ⟨k, fs⟩ := p
    intro st st' tr h
    rw [do_move] at h
    rcases hmg : moveGroup st k fs with ⟨evs, r⟩
    rw [hmg] at h
    cases r with
    | none =>
      dsimp only at h
      obtain ⟨_, h2⟩ := Prod.mk.inj h
      cases h2
    | some st1 =>
      dsimp only at h
      rcases hdm : do_move st1 rest with ⟨tr2, r2⟩
      rw [hdm] at h
      dsimp only at h
      obtain ⟨h1, h2⟩ := Prod.mk.inj h
      subst h2
      obtain ⟨gtop, gmono, ghd, gnd, gmk, gtr, gplace⟩ :=
        moveGroup_spec st st1 k fs evs hmg
      obtain ⟨rtop, rmono, rhd, rnd, rmk, rtr, rplace⟩ :=
        ih st1 st' tr2 hdm
      refine ⟨rtop.trans gtop, ?_, ?_, ?_, ?_, ?_, ?_⟩
      · intro d' n hin
        exact rmono d' n (gmono d' n hin)
      · intro d' hd
        exact rhd d' (ghd d' hd)
      · intro hnd
        exact rnd (gnd hnd)
      · intro d' hmem
        rw [← h1] at hmem
        rcases List.mem_append.mp hmem with h3 | h3
        · exact gmk d' h3
        · rcases hb : hasDir st d' with _ | _
          · rfl
          · have hb1 := ghd d' hb
            have hb2 := rmk d' h3
            rw [hb1] at hb2
            cases hb2
      · rw [← h1, List.filter_append, gtr, rtr, renameTrace]
        simp [renameTrace]
      · intro hnd k' fs' hmem f hf
        have hndtop : (topFileNames st).Nodup :=
          List.Nodup.sublist (topFileNames_sublist_entryNames st) hnd
        rcases List.mem_cons.mp hmem with h3 | h3
        · have hk : k' = k := congrArg Prod.fst h3
          have hfs : fs' = fs := congrArg Prod.snd h3
          subst hk
          subst hfs
          obtain ⟨hin1, hnot1⟩ := gplace hndtop f hf
          refine ⟨rmono k' f hin1, ?_⟩
          intro hc
          exact hnot1 (List.Sublist.mem hc rtop)
        · exact rplace (gnd hnd) k' fs' h3 f hf

/-- Claim C2 as stated is refuted: a directory whose only file is the
deny-listed `desktop.ini` completes a non-simulation run successfully, yet
that file still sits directly under the target directory and lies in no
`target_dir/<GroupKey>/` subdirectory afterwards. -/
theorem move_claim_fails_on_system_file :
    runMain "p" Nat.repr false (Target.dir exOnlySystem) =
        ([], some (Target.dir exOnlySystem)) ∧
      "desktop.ini" ∈ topFileNames exOnlySystem ∧
      inDir exOnlySystem (keyOfFile Nat.repr exOnlySystem "desktop.ini")
        "desktop.ini" = false :=
  ⟨by decide, by decide, by decide⟩

/-- Claim C2 (amended to the files the Directory Lister accepts): after a
successful non-simulation run, every listed file sits in the subdirectory
named by its formatted mtime and no longer sits directly in the target
directory; a subdirectory that already existed is never created again; and
the renames in the trace are exactly the grouping's members in group
order, names preserved. -/
theorem move_places_all_listed_files (pwd : String) (fmt : Nat → String)
    (entries : List Entry) (tr : List Event) (st' : List Entry)
    (h : (entryNames entries).Nodup)
    (hrun : runMain pwd fmt false (Target.dir entries) = (tr, some (Target.dir st'))) :
    (∀ f ∈ listFiles entries,
        (getmtime entries f).isSome = true ∧
          inDir st' (keyOfFile fmt entries f) f = true ∧
          f ∉ topFileNames st') ∧
      (∀ d cs, Entry.subdir d cs ∈ entries → Event.mkdir d ∉ tr) ∧
      tr.filter Event.isRename = renameTrace (theGrouping fmt entries) := by
  rw [runMain_dir pwd fmt false entries h] at hrun
  simp only [Bool.false_eq_true, if_false] at hrun
  rcases hdm : do_move entries (theGrouping fmt entries) with ⟨evs, r⟩
  rw [hdm] at hrun
  cases r with
  | none =>
    have h2 := (Prod.mk.inj hrun).2
    simp at h2
  | some st1 =>
    have h2 := (Prod.mk.inj hrun).2
    have hst : st1 = st' := Target.dir.inj (Option.some.inj (by simpa using h2))
    subst hst
    have h1 := (Prod.mk.inj hrun).1
    obtain ⟨dtop, dmono, dhd, dnd, dmk, dtr, dplace⟩ :=
      do_move_spec (theGrouping fmt entries) entries st1 evs hdm
    refine ⟨?_, ?_, ?_⟩
    · intro f hf
      obtain ⟨m, hm, _⟩ := getmtime_of_mem_listFiles entries h f hf
      have hmem : (keyOfFile fmt entries f,
          (listFiles entries).filter
            (fun f' => keyOfFile fmt entries f' == keyOfFile fmt entries f))
          ∈ theGrouping fmt entries :=
        keyedGroups_mem_self (keyOfFile fmt entries) (listFiles entries) f hf
      have hff : f ∈ (listFiles entries).filter
          (fun f' => keyOfFile fmt entries f' == keyOfFile fmt entries f) :=
        List.mem_filter.mpr ⟨hf, beq_self_eq_true _⟩
      obtain ⟨hin, hnot⟩ := dplace h _ _ hmem f hff
      exact ⟨by rw [hm]; rfl, hin, hnot⟩
    · intro d cs hmem hc
      rw [← h1] at hc
      rcases List.mem_append.mp hc with h3 | h3
      · rcases List.mem_map.mp h3 with ⟨s, _, hne⟩
        cases hne
      · have hfalse := dmk d h3
        rw [subdir_mem_hasDir entries d cs hmem] at hfalse
        cases hfalse
    · rw [← h1, List.filter_append, dtr]
      have hpre : ((print_group_info (theGrouping fmt entries)).map Event.out).filter
          Event.isRename = [] := by
        simp [List.filter_map, Function.comp, Event.isRename]
      rw [hpre, List.nil_append]

/-- Instance of the amended C2 on a two-file directory: after the run,
file `a` sits in the subdirectory named by its key and is gone from the
top level. -/
theorem move_places_all_listed_files_witness :
    inDir [Entry.subdir "1" [⟨"a", 1⟩], Entry.subdir "2" [⟨"b", 2⟩]]
        (keyOfFile Nat.repr exDir "a") "a" = true ∧
      "a" ∉ topFileNames [Entry.subdir "1" [⟨"a", 1⟩], Entry.subdir "2" [⟨"b", 2⟩]] := by
  have h := move_places_all_listed_files "p" Nat.repr exDir
    [Event.out "1:", Event.out "  - a", Event.out "2:", Event.out "  - b",
     Event.mkdir "1", Event.rename "a" "1", Event.mkdir "2", Event.rename "b" "2"]
    [Entry.subdir "1" [⟨"a", 1⟩], Entry.subdir "2" [⟨"b", 2⟩]]
    (by decide) (by decide)
  have h2 := h.1 "a" (by decide)
  exact ⟨h2.2.1, h2.2.2⟩
